import Mathlib

/-! xSDKTrilinos examples: the five-point Laplacian fixture and its bridges.

A shallow embedding of the three example programs

* `example/petsc/PETSc_Amesos2Ex.cpp`
* `petsc/example/PETSc_MueLuEx.cpp`
* `doc/xSDK_manual/src/PETSc_AnasaziEx.cpp`

`PetscInt` is a 32-bit `int` in these programs (`&rank`, a `PetscInt*`, is passed to
`MPI_Comm_rank`).  The loop is embedded twice: on the mathematical integers
(`loopBody`, `assemble`) and in `PetscInt` arithmetic, where every result wraps around
(`loopBody32`, `assemble32`, `globalRows`); the two agree when `m*n` is representable
(`assemble32_eq`).  C integer division is `Int.tdiv` (truncation toward zero).  The
scalars the loop stores (`4.0` and `-1.0`) are embedded as the integers `4` and `-1`.
-/

namespace XSDK

/-! ## PETSc matrix under assembly -/

/-- One `MatSetValues(A,1,&row,1,&col,&val,INSERT_VALUES)` call. -/
structure SetCall where
  row : Int
  col : Int
  val : Int
  deriving DecidableEq, Repr

/-- A PETSc `Mat` during and after assembly: the `MatSetValues` calls it received,
oldest first. -/
abbrev Mat := List SetCall

/-- `MatSetValues(A,1,&Ii,1,&J,&v,INSERT_VALUES)`, taken to succeed. -/
def MatSetValues (A : Mat) (Ii J v : Int) : Mat := A ++ [⟨Ii, J, v⟩]

/-- The value stored at `(I, J)` once the matrix is assembled: with `INSERT_VALUES`
the most recent call for that position wins; `none` is an unset position. -/
def matEntry (A : Mat) (I J : Int) : Option Int :=
  A.foldl (fun acc e => if e.row = I ∧ e.col = J then some e.val else acc) none

/-- The grid row `i = Ii/n` (C integer division). -/
def gridI (n Ii : Int) : Int := Int.tdiv Ii n

/-- The grid column `j = Ii - i*n`. -/
def gridJ (n Ii : Int) : Int := Ii - gridI n Ii * n

/-- The body of `for (Ii=Istart; Ii<Iend; Ii++) { ... }`, for one value of `Ii`. -/
def loopBody (m n : Int) (A : Mat) (Ii : Int) : Mat :=
  let i := gridI n Ii
  let j := gridJ n Ii
  let A := if i > 0 then MatSetValues A Ii (Ii - n) (-1) else A
  let A := if i < m - 1 then MatSetValues A Ii (Ii + n) (-1) else A
  let A := if j > 0 then MatSetValues A Ii (Ii - 1) (-1) else A
  let A := if j < n - 1 then MatSetValues A Ii (Ii + 1) (-1) else A
  MatSetValues A Ii Ii 4

/-- The loop `for (Ii = ...; Ii<Iend; Ii++)` started at `Ii`, with `fuel` bounding the
number of iterations. -/
def assembleLoop (m n Iend : Int) : Nat → Int → Mat → Mat
  | 0, _, A => A
  | fuel + 1, Ii, A =>
    if Ii < Iend then assembleLoop m n Iend fuel (Ii + 1) (loopBody m n A Ii) else A

/-- The assembly loop of `main` on a process whose `MatGetOwnershipRange` is
`[Istart, Iend)`, starting from the freshly created matrix `A`. -/
def assemble (m n Istart Iend : Int) (A : Mat) : Mat :=
  assembleLoop m n Iend (Iend - Istart).toNat Istart A

/-- The entry the loop body for row `I` leaves at `(I, J)`, on a fresh matrix. -/
def rowEntry (m n I J : Int) : Option Int := matEntry (loopBody m n [] I) I J

/-! ## The loop in `PetscInt` arithmetic -/

/-- `PETSC_MAX_INT`, the largest `PetscInt` (a 32-bit `int`). -/
def PETSC_MAX_INT : Int := 2147483647

/-- The value a 32-bit `int` holds after an arithmetic result `x`: two's complement
wrap-around into `[-2^31, 2^31)`. -/
def wrapInt (x : Int) : Int := (x + 2147483648) % 4294967296 - 2147483648

/-- The `m*n` of `MatSetSizes(A,PETSC_DECIDE,PETSC_DECIDE,m*n,m*n)`, computed in
`PetscInt`: the global number of rows and of columns of `A`. -/
def globalRows (m n : Int) : Int := wrapInt (m * n)

/-- The grid row `i = Ii/n` in `PetscInt` arithmetic. -/
def gridI32 (n Ii : Int) : Int := wrapInt (Int.tdiv Ii n)

/-- The grid column `j = Ii - i*n` in `PetscInt` arithmetic. -/
def gridJ32 (n Ii : Int) : Int := wrapInt (Ii - wrapInt (gridI32 n Ii * n))

/-- The body of `for (Ii=Istart; Ii<Iend; Ii++) { ... }` in `PetscInt` arithmetic. -/
def loopBody32 (m n : Int) (A : Mat) (Ii : Int) : Mat :=
  let i := gridI32 n Ii
  let j := gridJ32 n Ii
  let A := if i > 0 then MatSetValues A Ii (wrapInt (Ii - n)) (-1) else A
  let A := if i < wrapInt (m - 1) then MatSetValues A Ii (wrapInt (Ii + n)) (-1) else A
  let A := if j > 0 then MatSetValues A Ii (wrapInt (Ii - 1)) (-1) else A
  let A := if j < wrapInt (n - 1) then MatSetValues A Ii (wrapInt (Ii + 1)) (-1) else A
  MatSetValues A Ii Ii 4

/-- The loop `for (Ii = ...; Ii<Iend; Ii++)` in `PetscInt` arithmetic, started at `Ii`,
with `fuel` bounding the number of iterations. -/
def assembleLoop32 (m n Iend : Int) : Nat → Int → Mat → Mat
  | 0, _, A => A
  | fuel + 1, Ii, A =>
    if Ii < Iend then assembleLoop32 m n Iend fuel (wrapInt (Ii + 1)) (loopBody32 m n A Ii)
    else A

/-- The assembly loop of `main` in `PetscInt` arithmetic, on a process whose
`MatGetOwnershipRange` is `[Istart, Iend)`. -/
def assemble32 (m n Istart Iend : Int) (A : Mat) : Mat :=
  assembleLoop32 m n Iend (Iend - Istart).toNat Istart A

/-- The matrix `main` assembles on a single process, which owns all the
`globalRows m n` rows of `A`. -/
def mainAssemble (m n : Int) : Mat := assemble32 m n 0 (globalRows m n) []

/-! ## The stencil as the specification words it -/

/-- The four neighbours `(i-1,j), (i+1,j), (i,j-1), (i,j+1)` of grid point `(i, j)`,
as the specification lists them. -/
def specNeighbours (i j : Int) : List (Int × Int) :=
  [(i - 1, j), (i + 1, j), (i, j - 1), (i, j + 1)]

/-- A grid point lies inside `[0,m) × [0,n)`. -/
def specInGrid (m n : Int) (p : Int × Int) : Prop :=
  0 ≤ p.1 ∧ p.1 < m ∧ 0 ≤ p.2 ∧ p.2 < n

instance (m n : Int) (p : Int × Int) : Decidable (specInGrid m n p) := by
  unfold specInGrid; infer_instance

/-- The row the specification describes for global row `Ii`: 4 on the diagonal, -1 at
the column `i'*n + j'` of every neighbour inside the grid, nothing elsewhere. -/
def specRow (m n Ii J : Int) : Option Int :=
  if J = Ii then some 4
  else if ∃ p ∈ specNeighbours (Ii / n) (Ii % n), specInGrid m n p ∧ J = p.1 * n + p.2
    then some (-1)
  else none

/-! ## Ownership ranges -/

/-- The stash of the process whose ownership range is `rg = (Istart, Iend)`. -/
def rankStash (m n : Int) (rg : Int × Int) : Mat := assemble m n rg.1 rg.2 []

/-- An assignment `ranges r = (Istart_r, Iend_r)` of ownership ranges to the ranks
`0 .. P-1` that is rank-ordered and contiguous (each range starts where the previous
one ends), starts at `0` and ends at `N`; such ranges are pairwise disjoint and their
union is `[0, N)`. -/
def ownershipValid (N : Int) (P : Nat) (ranges : Nat → Int × Int) : Prop :=
  0 < P ∧ (ranges 0).1 = 0 ∧ (ranges (P - 1)).2 = N ∧
  (∀ r, r < P → (ranges r).1 ≤ (ranges r).2) ∧
  (∀ r, r < P - 1 → (ranges r).2 = (ranges (r + 1)).1)

instance (N : Int) (P : Nat) (ranges : Nat → Int × Int) :
    Decidable (ownershipValid N P ranges) := by
  unfold ownershipValid; infer_instance

/-- The calls of all ranks `0 .. P-1`, rank by rank. -/
def allRanksStash (m n : Int) (P : Nat) (ranges : Nat → Int × Int) : Mat :=
  ((List.range P).map (fun r => rankStash m n (ranges r))).flatten

/-! ## PETSc vectors and products (single process) -/

/-- The columns set in row `I`, in increasing order as the AIJ format stores them. -/
def rowCols (A : Mat) (I : Int) : List Int :=
  (((A.filter (fun e => e.row = I)).map (fun e => e.col)).dedup).insertionSort (· ≤ ·)

/-- `MatGetRow`: the `(column, value)` pairs of row `I` of the assembled matrix. -/
def MatGetRow (A : Mat) (I : Int) : List (Int × Int) :=
  (rowCols A I).filterMap (fun J => (matEntry A I J).map (fun v => (J, v)))

/-- The `k`-th value of a vector of scalars. -/
def vecGet (u : List Int) (k : Int) : Int := if 0 ≤ k then u.getD k.toNat 0 else 0

/-- The product of one sparse row with a vector. -/
def rowDot (row : List (Int × Int)) (u : List Int) : Int :=
  (row.map (fun cv => cv.2 * vecGet u cv.1)).sum

/-- `MatMult(A,u,b)` on a single process owning all `N` rows. -/
def MatMult (A : Mat) (N : Nat) (u : List Int) : List Int :=
  (List.range N).map (fun I => rowDot (MatGetRow A I) u)

/-- `VecSet(u,one)`. -/
def VecSet {α : Type} (u : List α) (c : α) : List α := u.map (fun _ => c)

/-- The sum of squares of the entries, the square of `norm2`. -/
def normSq (u : List Int) : Int := (u.map (fun v => v * v)).sum

/-- The product `M u` as the specification means it, computed without the sparse row
view: entry `I` is the sum over all columns `J < N` of `M[I,J] * u[J]`, an unset
position counting as zero. -/
def specMatVec (A : Mat) (N : Nat) (u : List Int) : List Int :=
  (List.range N).map (fun (I : Nat) =>
    ((List.range N).map (fun (J : Nat) =>
      (matEntry A (Int.ofNat I) (Int.ofNat J)).getD 0 * u.getD J 0)).sum)

/-! ## The Tpetra side -/

/-- `memcpy(dst,src,count*sizeof(PetscScalar))` into a buffer `dst` of `count` scalars. -/
def memcpy {α : Type} (src : List α) (count : Nat) : List α := src.take count

/-- `ArrayView<PetscScalar>(ptr,length)`: the first `length` scalars at `ptr`. -/
def ArrayView {α : Type} (ptr : List α) (length : Nat) : List α := ptr.take length

/-- `Tpetra::Vector(map,view)`: a vector over a map with `localSize` local elements that
holds its own copy of the first `localSize` scalars of `view`; the constructor throws
(`none`) when the view is shorter than the map. -/
def tpetraVector {α : Type} (localSize : Nat) (view : List α) : Option (List α) :=
  if view.length < localSize then none else some (view.take localSize)

/-- Lines 134-143 of `PETSc_Amesos2Ex.cpp`: copy the PETSc vector `u` into the Tpetra
vector `epu` over the row map of `epA`, which has `rowMapLocal` local elements.  The
result is `u` after `VecRestoreArray` together with `epu`. -/
def copyVecToTpetra {α : Type} (rowMapLocal : Nat) (u : List α) :
    Option (List α × List α) :=
  let vals := u
  let length := u.length
  let valscopy := memcpy vals length
  let u := vals
  let epuView := ArrayView valscopy length
  match tpetraVector rowMapLocal epuView with
  | none => none
  | some epu => some (u, epu)

/-- Modelled from the spec: the target of `copy(sourceMatrix, targetPartition)`, a
distributed sparse structure under construction, given by its local row range and the
entries inserted so far.  `deepCopyPETScAIJMatrixToTpetraCrsMatrix` is defined in
`Tpetra_PETScAIJMatrix.hpp`, which is not among the sources. -/
structure CrsMatrix where
  firstRow : Int
  localRows : Nat
  staged : List (Int × Int × Int)
  deriving DecidableEq, Repr

/-- Modelled from the spec: `insertRow(globalRow, cols, vals)` of the native
sparse-matrix interface (the target side is absent from the sources). -/
def CrsMatrix.insertRow (T : CrsMatrix) (r : Int) (cvs : List (Int × Int)) : CrsMatrix :=
  { T with staged := T.staged ++ cvs.map (fun cv => (r, cv.1, cv.2)) }

/-- Modelled from the spec: the row `I` after `finalizeAssembly()` of the absent target
structure: one entry per inserted column, in increasing column order, values inserted
more than once accumulated additively. -/
def CrsMatrix.getRow (T : CrsMatrix) (I : Int) : List (Int × Int) :=
  let inRow := T.staged.filter (fun e => e.1 = I)
  let cols := ((inRow.map (fun e => e.2.1)).dedup).insertionSort (· ≤ ·)
  cols.map (fun J => (J, ((inRow.filter (fun e => e.2.1 = J)).map (fun e => e.2.2)).sum))

/-- Modelled from the spec: `apply(inputVector) -> outputVector`, the matrix-vector
product of the absent target structure over its local rows (single process). -/
def CrsMatrix.apply (T : CrsMatrix) (x : List Int) : List Int :=
  (List.range T.localRows).map (fun k => rowDot (T.getRow (T.firstRow + k)) x)

/-- Modelled from the spec: `copy(sourceMatrix, targetPartition)`, standing for the
absent `deepCopyPETScAIJMatrixToTpetraCrsMatrix`: every locally owned row is queried
from the source and inserted into a freshly allocated target. -/
def deepCopyPETScAIJMatrixToTpetraCrsMatrix (A : Mat) (Istart Iend : Int) : CrsMatrix :=
  (List.range (Iend - Istart).toNat).foldl
    (fun T k => T.insertRow (Istart + k) (MatGetRow A (Istart + k)))
    ⟨Istart, (Iend - Istart).toNat, []⟩

/-- The vectors of one run of `PETSc_Amesos2Ex.cpp`. -/
structure Amesos2Vectors where
  u : List Int
  b : List Int
  epu : List Int
  epb : List Int
  deriving DecidableEq, Repr

/-- Lines 98-145 of `PETSc_Amesos2Ex.cpp` on a single process, without
`-random_exact_sol`: assemble `A`, copy it to `epA`, set `u` to ones, `b = A u`, copy `u`
to `epu`, and `epb = epA epu`. -/
def amesos2Main (m n : Int) : Option Amesos2Vectors :=
  let A := mainAssemble m n
  let epA := deepCopyPETScAIJMatrixToTpetraCrsMatrix A 0 (globalRows m n)
  let u := VecSet (List.replicate (globalRows m n).toNat 0) 1
  let b := MatMult A (globalRows m n).toNat u
  match copyVecToTpetra epA.localRows u with
  | none => none
  | some (u, epu) => some ⟨u, b, epu, epA.apply epu⟩

/-! ## `ShellApplyML` -/

/-- `PetscErrorCode` is an `int`; `0` is success. -/
abbrev PetscErrorCode := Int

/-- The `MueLu::TpetraOperator` behind the shell preconditioner: the number of local
elements of its domain map, and the map it applies to the local values. -/
structure MueLuOp (α : Type) where
  domainLocal : Nat
  op : List α → List α

/-- `mlp->apply(X,Y)` with the default `alpha = 1`, `beta = 0`: `Y` is overwritten by
the operator applied to `X`. -/
def MueLuOp.apply {α : Type} (mlp : MueLuOp α) (X _Y : List α) : List α := mlp.op X

/-- The loop `for(int i=0; i< tpetraYData.size(); i++) yvals[i] = tpetraYData[i];`
started at `i`, with `fuel` bounding the number of iterations. -/
def copyOutLoop {α : Type} (tpetraYData : List α) : Nat → Nat → List α → List α
  | 0, _, yvals => yvals
  | fuel + 1, i, yvals =>
    match tpetraYData[i]? with
    | some v => copyOutLoop tpetraYData fuel (i + 1) (yvals.set i v)
    | none => yvals

/-- `ShellApplyML(pc,x,y)`.  `errGet` is the first nonzero error code reported by
`PCShellGetContext`, `VecGetLocalSize`, `VecGetArrayRead`, `VecGetArray` (0 if none),
`errRestore` the same for the two restore calls.  The result is the return value with
the values of `x` and `y` after the call; `none` is a C++ exception. -/
def ShellApplyML {α : Type} (errGet errRestore : PetscErrorCode) (mlp : MueLuOp α)
    (x y : List α) : Option (PetscErrorCode × List α × List α) :=
  if errGet ≠ 0 then some (errGet, x, y) else
  let length := x.length
  let xvals := x
  let yvals := y
  let xView := ArrayView xvals length
  let yView := ArrayView yvals length
  match tpetraVector mlp.domainLocal xView, tpetraVector mlp.domainLocal yView with
  | some tpetraX, some tpetraY =>
    let tpetraY := mlp.apply tpetraX tpetraY
    let tpetraYData := tpetraY
    let yvals := copyOutLoop tpetraYData tpetraYData.length 0 yvals
    if errRestore ≠ 0 then some (errRestore, xvals, yvals) else some (0, xvals, yvals)
  | _, _ => none

/-! ## Exit codes -/

/-- `EXIT_SUCCESS`. -/
def EXIT_SUCCESS : Int := 0

/-- `EXIT_FAILURE`. -/
def EXIT_FAILURE : Int := 1

/-- `Anasazi::ReturnType`. -/
inductive ReturnType where
  | Converged
  | Unconverged
  deriving DecidableEq, Repr

/-- The return value of `main` in `PETSc_AnasaziEx.cpp` on the process `rank`.
`setupErr` is the first nonzero `ierr` of the PETSc calls before the solve (0 if none),
`returnCode` what `solver->solve()` returned, `finalizeErr` the `ierr` of
`PetscFinalize`. -/
def anasaziMain (setupErr : PetscErrorCode) (returnCode : ReturnType) (rank : Int)
    (finalizeErr : PetscErrorCode) : Int :=
  if setupErr ≠ 0 then setupErr
  else if returnCode ≠ ReturnType.Converged ∧ rank = 0 then EXIT_FAILURE
  else if finalizeErr ≠ 0 then finalizeErr
  else EXIT_SUCCESS

/-- The PETSc options database after `PetscInitialize(&argc,&args,...)`: the integer
options of the command line, by name. -/
abbrev PetscOptions := List (String × Int)

/-- `PetscOptionsGetInt(PETSC_NULL,name,&value,PETSC_NULL)`: the value of the option
`name` in the database replaces `value`; without the option `value` is kept. -/
def PetscOptionsGetInt (opts : PetscOptions) (name : String) (value : Int) : Int :=
  match opts.lookup name with
  | some v => v
  | none => value

/-- The mesh dimensions `(m, n)` of `PETSc_Amesos2Ex.cpp`: 50 each unless `-m`, `-n`. -/
def amesos2MeshDims (opts : PetscOptions) : Int × Int :=
  let m := 50
  let n := 50
  let m := PetscOptionsGetInt opts "-m" m
  let n := PetscOptionsGetInt opts "-n" n
  (m, n)

/-- The mesh dimensions `(m, n)` of `PETSc_MueLuEx.cpp`: `PetscInt m = 50,n = 50;` and no
option is read between `PetscInitialize` and `MatSetSizes`. -/
def mueluMeshDims (_opts : PetscOptions) : Int × Int :=
  let m := 50
  let n := 50
  (m, n)

/-- The global number of rows `m*n` that `PETSc_MueLuEx.cpp` passes to `MatSetSizes`. -/
def mueluGlobalRows (opts : PetscOptions) : Int :=
  (mueluMeshDims opts).1 * (mueluMeshDims opts).2

/-- The matrix `PETSc_MueLuEx.cpp` assembles on a single process. -/
def mueluMat (opts : PetscOptions) : Mat :=
  assemble (mueluMeshDims opts).1 (mueluMeshDims opts).2 0 (mueluGlobalRows opts) []

/-! ## Repeated insertions -/

/-- The calls for row `I` among the `MatSetValues` calls a matrix received. -/
def rowCalls (A : Mat) (I : Int) : Mat := A.filter (fun e => decide (e.row = I))

/-- The value stored at `(I, J)` if repeated insertions accumulate (`ADD_VALUES`, and
the `insertRow` of the specification) instead of overwriting: the sum of the values of
all calls for that position; `none` is an unset position. -/
def matEntryAdd (A : Mat) (I J : Int) : Option Int :=
  let vs := (A.filter (fun e => decide (e.row = I ∧ e.col = J))).map (fun e => e.val)
  if vs = [] then none else some vs.sum

end XSDK

namespace XSDK

theorem loopBody_append (m n : Int) (A : Mat) (Ii : Int) :
    loopBody m n A Ii = A ++ loopBody m n [] Ii := by
  unfold loopBody MatSetValues
  simp only []
  split_ifs <;> simp

theorem matEntry_foldl (B : Mat) (I J : Int) (acc : Option Int) :
    B.foldl (fun acc e => if e.row = I ∧ e.col = J then some e.val else acc) acc =
      match matEntry B I J with
      | some v => some v
      | none => acc := by
  induction B generalizing acc with
  | nil => simp [matEntry]
  | cons e B ih =>
    unfold matEntry
    simp only [List.foldl_cons]
    rw [ih, ih (if e.row = I ∧ e.col = J then some e.val else none)]
    split_ifs with h
    · cases matEntry B I J <;> rfl
    · cases matEntry B I J <;> rfl

theorem matEntry_append (A B : Mat) (I J : Int) :
    matEntry (A ++ B) I J =
      match matEntry B I J with
      | some v => some v
      | none => matEntry A I J := by
  conv_lhs => unfold matEntry
  rw [List.foldl_append, matEntry_foldl]
  rfl

theorem matEntry_nil (I J : Int) : matEntry [] I J = none := rfl

theorem matEntry_MatSetValues (A : Mat) (r c v I J : Int) :
    matEntry (MatSetValues A r c v) I J =
      if r = I ∧ c = J then some v else matEntry A I J := by
  unfold MatSetValues
  rw [matEntry_append]
  simp only [matEntry, List.foldl_cons, List.foldl_nil]
  split_ifs <;> rfl

theorem matEntry_loopBody_other (m n s I J : Int) (h : s ≠ I) :
    matEntry (loopBody m n [] s) I J = none := by
  unfold loopBody
  simp only []
  split_ifs <;> simp [matEntry_MatSetValues, matEntry_nil, h]

theorem rowEntry_eq (m n I J : Int) :
    rowEntry m n I J =
      if J = I then some 4
      else if (gridJ n I < n - 1 ∧ J = I + 1) ∨ (gridJ n I > 0 ∧ J = I - 1)
          ∨ (gridI n I < m - 1 ∧ J = I + n) ∨ (gridI n I > 0 ∧ J = I - n) then some (-1)
      else none := by
  unfold rowEntry loopBody
  simp only []
  by_cases hJ : J = I
  · subst hJ
    simp [matEntry_MatSetValues]
  · have hJ2 : ¬ I = J := fun h => hJ h.symm
    rw [if_neg hJ]
    by_cases h1 : gridJ n I < n - 1 <;> by_cases h2 : gridJ n I > 0 <;>
      by_cases h3 : gridI n I < m - 1 <;> by_cases h4 : gridI n I > 0 <;>
      simp only [h1, h2, h3, h4, if_true, if_false, matEntry_MatSetValues, matEntry_nil,
        true_and, false_and, false_or, or_false, hJ2, and_false, gt_iff_lt] <;>
      split_ifs <;> first | rfl | omega

theorem matEntry_loopBody (m n : Int) (A : Mat) (s I J : Int) :
    matEntry (loopBody m n A s) I J =
      if s = I then
        (match rowEntry m n I J with
         | some v => some v
         | none => matEntry A I J)
      else matEntry A I J := by
  rw [loopBody_append, matEntry_append]
  split_ifs with h
  · subst h; rfl
  · rw [matEntry_loopBody_other m n s I J h]

theorem matEntry_assembleLoop (m n Iend I J : Int) (fuel : Nat) (s : Int) (A : Mat) :
    matEntry (assembleLoop m n Iend fuel s A) I J =
      if s ≤ I ∧ I < Iend ∧ I < s + fuel then
        (match rowEntry m n I J with
         | some v => some v
         | none => matEntry A I J)
      else matEntry A I J := by
  induction fuel generalizing s A with
  | zero =>
    have : ¬ (s ≤ I ∧ I < Iend ∧ I < s + ((0 : Nat) : Int)) := by
      simp only [Nat.cast_zero]; omega
    rw [if_neg this]; rfl
  | succ k ih =>
    unfold assembleLoop
    by_cases hs : s < Iend
    · rw [if_pos hs, ih, matEntry_loopBody]
      by_cases hsI : s = I
      · subst hsI
        have h1 : ¬ (s + 1 ≤ s ∧ s < Iend ∧ s < s + 1 + (k : Int)) := by omega
        have h2 : s ≤ s ∧ s < Iend ∧ s < s + ((k + 1 : Nat) : Int) := by
          push_cast; omega
        rw [if_neg h1, if_pos h2, if_pos rfl]
      · rw [if_neg hsI]
        by_cases hc : s + 1 ≤ I ∧ I < Iend ∧ I < s + 1 + (k : Int)
        · have h2 : s ≤ I ∧ I < Iend ∧ I < s + ((k + 1 : Nat) : Int) := by
            push_cast; omega
          rw [if_pos hc, if_pos h2]
        · have h2 : ¬ (s ≤ I ∧ I < Iend ∧ I < s + ((k + 1 : Nat) : Int)) := by
            push_cast; omega
          rw [if_neg hc, if_neg h2]
    · rw [if_neg hs]
      have h2 : ¬ (s ≤ I ∧ I < Iend ∧ I < s + ((k + 1 : Nat) : Int)) := by omega
      rw [if_neg h2]

/-- Within its ownership range the loop leaves at `(I, J)` what the body for row `I`
put there; outside it the matrix is as it was. -/
theorem matEntry_assemble (m n Istart Iend I J : Int) (A : Mat) :
    matEntry (assemble m n Istart Iend A) I J =
      if Istart ≤ I ∧ I < Iend then
        (match rowEntry m n I J with
         | some v => some v
         | none => matEntry A I J)
      else matEntry A I J := by
  unfold assemble
  rw [matEntry_assembleLoop]
  by_cases h : Istart ≤ I ∧ I < Iend
  · have h2 : Istart ≤ I ∧ I < Iend ∧ I < Istart + ((Iend - Istart).toNat : Int) := by
      have := Int.toNat_of_nonneg (show 0 ≤ Iend - Istart by omega)
      omega
    rw [if_pos h, if_pos h2]
  · have h2 : ¬ (Istart ≤ I ∧ I < Iend ∧ I < Istart + ((Iend - Istart).toNat : Int)) := by
      omega
    rw [if_neg h, if_neg h2]

/-- On a fresh matrix the loop leaves, in the rows of its ownership range, what the
loop body put there, and nothing in any other row. -/
theorem matEntry_assemble_nil (m n Istart Iend I J : Int) :
    matEntry (assemble m n Istart Iend []) I J =
      if Istart ≤ I ∧ I < Iend then rowEntry m n I J else none := by
  rw [matEntry_assemble]
  split_ifs
  · cases rowEntry m n I J <;> rfl
  · rfl

theorem gridI_eq_ediv (n I : Int) (hn : 1 ≤ n) (hI : 0 ≤ I) : gridI n I = I / n :=
  Int.tdiv_eq_ediv hI (by omega)

theorem gridJ_eq_emod (n I : Int) (hn : 1 ≤ n) (hI : 0 ≤ I) : gridJ n I = I % n := by
  unfold gridJ
  rw [gridI_eq_ediv n I hn hI, Int.emod_def, mul_comm]

/-- The row the loop body writes, with the guards `i>0`, `i<m-1`, `j>0`, `j<n-1` expressed
on the row index itself. -/
theorem rowEntry_grid (m n I J : Int) (hn : 1 ≤ n) (hI : 0 ≤ I) :
    rowEntry m n I J =
      if J = I then some 4
      else if (I % n < n - 1 ∧ J = I + 1) ∨ (0 < I % n ∧ J = I - 1)
          ∨ (I + n < m * n ∧ J = I + n) ∨ (n ≤ I ∧ J = I - n) then some (-1)
      else none := by
  have hpos : (0 : Int) < n := by omega
  have e1 : gridI n I < m - 1 ↔ I + n < m * n := by
    rw [gridI_eq_ediv n I hn hI, Int.ediv_lt_iff_lt_mul hpos, sub_mul, one_mul]
    omega
  have e2 : gridI n I > 0 ↔ n ≤ I := by
    rw [gridI_eq_ediv n I hn hI]
    have := @Int.le_ediv_iff_mul_le 1 I n hpos
    rw [one_mul] at this
    omega
  rw [rowEntry_eq, gridJ_eq_emod n I hn hI]
  simp only [e1, e2, gt_iff_lt]

/-- On the rows of the grid the loop body writes the row the specification describes. -/
theorem rowEntry_eq_specRow (m n I J : Int) (hn : 1 ≤ n) (hI0 : 0 ≤ I) (hI1 : I < m * n) :
    rowEntry m n I J = specRow m n I J := by
  have hpos : (0 : Int) < n := by omega
  have hj0 := Int.emod_nonneg I (show n ≠ 0 by omega)
  have hj1 := Int.emod_lt_of_pos I hpos
  have hd := Int.emod_add_ediv I n
  have hi0 : 0 ≤ I / n := Int.ediv_nonneg hI0 (by omega)
  have hi3 : I / n < m := (Int.ediv_lt_iff_lt_mul hpos).2 hI1
  have hi1 : 1 ≤ I / n ↔ n ≤ I := by
    have := @Int.le_ediv_iff_mul_le 1 I n hpos
    rw [one_mul] at this
    exact this
  have hi2 : I / n < m - 1 ↔ I + n < m * n := by
    rw [Int.ediv_lt_iff_lt_mul hpos, sub_mul, one_mul]
    omega
  have hc : n * (I / n) = I / n * n := mul_comm _ _
  rw [rowEntry_grid m n I J hn hI0]
  unfold specRow specNeighbours specInGrid
  by_cases hJ : J = I
  · rw [if_pos hJ, if_pos hJ]
  · rw [if_neg hJ, if_neg hJ]
    have key : ((I % n < n - 1 ∧ J = I + 1) ∨ (0 < I % n ∧ J = I - 1)
          ∨ (I + n < m * n ∧ J = I + n) ∨ (n ≤ I ∧ J = I - n)) ↔
        (∃ p ∈ [(I / n - 1, I % n), (I / n + 1, I % n), (I / n, I % n - 1), (I / n, I % n + 1)],
          (0 ≤ p.1 ∧ p.1 < m ∧ 0 ≤ p.2 ∧ p.2 < n) ∧ J = p.1 * n + p.2) := by
      simp only [List.mem_cons, List.mem_singleton, List.not_mem_nil, or_false,
        exists_eq_or_imp, exists_eq_left, sub_mul, add_mul, one_mul]
      constructor
      · rintro (⟨h, e⟩ | ⟨h, e⟩ | ⟨h, e⟩ | ⟨h, e⟩)
        · right; right; right; exact ⟨⟨by omega, by omega, by omega, by omega⟩, by omega⟩
        · right; right; left; exact ⟨⟨by omega, by omega, by omega, by omega⟩, by omega⟩
        · right; left; exact ⟨⟨by omega, by omega, by omega, by omega⟩, by omega⟩
        · left; exact ⟨⟨by omega, by omega, by omega, by omega⟩, by omega⟩
      · rintro (⟨⟨h1, h2, h3, h4⟩, e⟩ | ⟨⟨h1, h2, h3, h4⟩, e⟩ | ⟨⟨h1, h2, h3, h4⟩, e⟩ |
          ⟨⟨h1, h2, h3, h4⟩, e⟩)
        · right; right; right; exact ⟨by omega, by omega⟩
        · right; right; left; exact ⟨by omega, by omega⟩
        · right; left; exact ⟨by omega, by omega⟩
        · left; exact ⟨by omega, by omega⟩
    simp only [key]

/-- On the integers: for `n ≥ 1` and a row `0 ≤ Ii < m*n` inside the range of the loop,
`(i, j) = (Ii / n, Ii mod n)` lies in the grid and the loop leaves row `Ii` as the
specification describes it. -/
theorem assembly_row_int (m n Ii Istart Iend : Int) (hn : 1 ≤ n)
    (h0 : 0 ≤ Ii) (h1 : Ii < m * n) (hs : Istart ≤ Ii) (he : Ii < Iend) :
    (gridI n Ii = Ii / n ∧ gridJ n Ii = Ii % n) ∧
    (0 ≤ gridI n Ii ∧ gridI n Ii < m ∧ 0 ≤ gridJ n Ii ∧ gridJ n Ii < n) ∧
    ∀ J, matEntry (assemble m n Istart Iend []) Ii J =
      if J = Ii then some 4
      else if ∃ p ∈ specNeighbours (gridI n Ii) (gridJ n Ii),
          specInGrid m n p ∧ J = p.1 * n + p.2 then some (-1)
      else none := by
  have hpos : (0 : Int) < n := by omega
  have ei := gridI_eq_ediv n Ii hn h0
  have ej := gridJ_eq_emod n Ii hn h0
  refine ⟨⟨ei, ej⟩, ?_, ?_⟩
  · rw [ei, ej]
    exact ⟨Int.ediv_nonneg h0 (by omega), (Int.ediv_lt_iff_lt_mul hpos).2 h1,
      Int.emod_nonneg Ii (by omega), Int.emod_lt_of_pos Ii hpos⟩
  · intro J
    rw [matEntry_assemble_nil, if_pos ⟨hs, he⟩, rowEntry_eq_specRow m n Ii J hn h0 h1, ei, ej]
    rfl

set_option maxRecDepth 100000 in
/-- C2: on the 5x5 grid assembled by one process owning `[0, 25)`, row 12 holds exactly
the columns 7, 11, 12, 13, 17 with 4 at column 12 and -1 at the others, and row 0 holds
exactly the columns 0, 1, 5 with 4 at column 0 and -1 at columns 1 and 5. -/
theorem C2_rows_12_and_0 :
    (∀ J, matEntry (assemble 5 5 0 25 []) 12 J =
      if J = 12 then some 4 else if J = 7 ∨ J = 11 ∨ J = 13 ∨ J = 17 then some (-1)
      else none) ∧
    (∀ J, matEntry (assemble 5 5 0 25 []) 0 J =
      if J = 0 then some 4 else if J = 1 ∨ J = 5 then some (-1) else none) ∧
    MatGetRow (assemble 5 5 0 25 []) 12 = [(7, -1), (11, -1), (12, 4), (13, -1), (17, -1)] ∧
    MatGetRow (assemble 5 5 0 25 []) 0 = [(0, 4), (1, -1), (5, -1)] := by
  refine ⟨?_, ?_, by decide, by decide⟩
  · intro J
    rw [matEntry_assemble_nil, if_pos (by decide), rowEntry_grid 5 5 12 J (by decide) (by decide)]
    have e : (12 : Int) % 5 = 2 := by decide
    rw [e]
    split_ifs <;> first | rfl | omega
  · intro J
    rw [matEntry_assemble_nil, if_pos (by decide), rowEntry_grid 5 5 0 J (by decide) (by decide)]
    have e : (0 : Int) % 5 = 0 := by decide
    rw [e]
    split_ifs <;> first | rfl | omega

set_option maxRecDepth 1000000 in
/-- The vectors of the 5x5 run on a single process with the default exact solution. -/
theorem amesos2Main_5_5 :
    amesos2Main 5 5 = some
      { u := List.replicate 25 1
        b := [2, 1, 1, 1, 2, 1, 0, 0, 0, 1, 1, 0, 0, 0, 1, 1, 0, 0, 0, 1, 2, 1, 1, 1, 2]
        epu := List.replicate 25 1
        epb := [2, 1, 1, 1, 2, 1, 0, 0, 0, 1, 1, 0, 0, 0, 1, 1, 0, 0, 0, 1, 2, 1, 1, 1, 2] } := by
  decide

set_option maxRecDepth 1000000 in
/-- C3: on the 5x5 grid on a single process, with `u` all ones, the vector `b` computed
on the source side is the product `M u` (2 at the corners, 1 on the edges, 0 inside),
and applying the deep copy of `M` to the copy of `u` gives that same vector in every
entry (so within `1e-10`), with the same norm. -/
theorem C3_bridged_apply_reproduces_b :
    ∃ r : Amesos2Vectors, amesos2Main 5 5 = some r ∧
      r.u = List.replicate 25 1 ∧ r.epu = r.u ∧
      r.b = specMatVec (mainAssemble 5 5) 25 r.u ∧
      r.b = [2, 1, 1, 1, 2, 1, 0, 0, 0, 1, 1, 0, 0, 0, 1, 1, 0, 0, 0, 1, 2, 1, 1, 1, 2] ∧
      r.epb = [2, 1, 1, 1, 2, 1, 0, 0, 0, 1, 1, 0, 0, 0, 1, 1, 0, 0, 0, 1, 2, 1, 1, 1, 2] ∧
      r.b = MatMult (mainAssemble 5 5) 25 r.u ∧
      r.epb = (deepCopyPETScAIJMatrixToTpetraCrsMatrix (mainAssemble 5 5) 0 25).apply r.epu ∧
      r.b.length = 25 ∧ r.epb.length = 25 ∧
      (∀ k, k < 25 → r.epb[k]? = r.b[k]?) ∧
      (∀ k, k < 25 → |((r.epb.getD k 0 : Int) : ℚ) - ((r.b.getD k 0 : Int) : ℚ)| ≤ 1e-10) ∧
      normSq r.epb = normSq r.b ∧ normSq r.b = 28 := by
  refine ⟨_, amesos2Main_5_5, rfl, rfl, by decide, rfl, rfl, by decide, by decide, rfl, rfl,
    fun _ _ => rfl, ?_, rfl, by decide⟩
  intro k _
  simp only [sub_self, abs_zero]
  norm_num

/-! ### Ownership ranges -/

theorem assembleLoop_succ (m n Iend : Int) (fuel : Nat) (s : Int) (A : Mat) :
    assembleLoop m n Iend (fuel + 1) s A =
      if s < Iend then assembleLoop m n Iend fuel (s + 1) (loopBody m n A s) else A := rfl

theorem assembleLoop_append (m n Iend : Int) (fuel : Nat) (s : Int) (A : Mat) :
    assembleLoop m n Iend fuel s A = A ++ assembleLoop m n Iend fuel s [] := by
  induction fuel generalizing s A with
  | zero => simp [assembleLoop]
  | succ k ih =>
    unfold assembleLoop
    split_ifs with h
    · rw [ih (s + 1) (loopBody m n A s), ih (s + 1) (loopBody m n [] s), loopBody_append,
        List.append_assoc]
    · simp

theorem row_of_mem_loopBody (m n s : Int) (e : SetCall) (h : e ∈ loopBody m n [] s) :
    e.row = s := by
  unfold loopBody MatSetValues at h
  simp only [] at h
  split_ifs at h <;> simp at h <;> rcases h with h | h | h | h | h <;>
    first | rfl | (subst h; rfl)

theorem row_of_mem_assembleLoop (m n Iend : Int) (fuel : Nat) (s : Int) (e : SetCall)
    (h : e ∈ assembleLoop m n Iend fuel s []) : s ≤ e.row ∧ e.row < Iend := by
  induction fuel generalizing s with
  | zero => simp [assembleLoop] at h
  | succ k ih =>
    unfold assembleLoop at h
    split_ifs at h with hs
    · rw [assembleLoop_append, List.mem_append] at h
      rcases h with h | h
      · have := row_of_mem_loopBody m n s e h
        omega
      · have := ih (s + 1) h
        omega
    · simp at h

theorem assembleLoop_split (m n e f : Int) (hef : e ≤ f) (k k' : Nat) (s : Int) (A : Mat)
    (hk : s + k = e) :
    assembleLoop m n f (k + k') s A = assembleLoop m n f k' e (assembleLoop m n e k s A) := by
  induction k generalizing s A with
  | zero =>
    have : s = e := by simpa using hk
    subst this
    simp [assembleLoop]
  | succ k ih =>
    have h1 : s < e := by push_cast at hk; omega
    have h2 : s < f := by omega
    rw [Nat.succ_add, assembleLoop_succ, assembleLoop_succ, if_pos h1, if_pos h2]
    exact ih (s + 1) (loopBody m n A s) (by push_cast at hk ⊢; omega)

/-- Assembling `[s, f)` is assembling `[s, e)` and then `[e, f)`. -/
theorem assemble_split (m n s e f : Int) (hse : s ≤ e) (hef : e ≤ f) :
    assemble m n s f [] = assemble m n s e [] ++ assemble m n e f [] := by
  unfold assemble
  have hk : (f - s).toNat = (e - s).toNat + (f - e).toNat := by omega
  rw [hk, assembleLoop_split m n e f hef (e - s).toNat (f - e).toNat s []
    (by have := Int.toNat_of_nonneg (show 0 ≤ e - s by omega); omega)]
  exact assembleLoop_append m n f (f - e).toNat e _

theorem count_diag_loopBody (m n s I : Int) :
    List.count (⟨I, I, 4⟩ : SetCall) (loopBody m n [] s) = if s = I then 1 else 0 := by
  unfold loopBody MatSetValues
  simp only []
  by_cases h : s = I
  · subst h
    rw [if_pos rfl]
    split_ifs <;> simp [List.count_cons, List.count_nil]
  · have h2 : ¬ I = s := fun e => h e.symm
    rw [if_neg h]
    split_ifs <;> simp [List.count_cons, List.count_nil, h, h2]

theorem count_diag_assembleLoop (m n Iend I : Int) (fuel : Nat) (s : Int) :
    List.count (⟨I, I, 4⟩ : SetCall) (assembleLoop m n Iend fuel s []) =
      if s ≤ I ∧ I < Iend ∧ I < s + fuel then 1 else 0 := by
  induction fuel generalizing s with
  | zero =>
    have : ¬ (s ≤ I ∧ I < Iend ∧ I < s + ((0 : Nat) : Int)) := by
      simp only [Nat.cast_zero]; omega
    rw [if_neg this]; rfl
  | succ k ih =>
    unfold assembleLoop
    by_cases hs : s < Iend
    · rw [if_pos hs, assembleLoop_append, List.count_append, ih, count_diag_loopBody]
      by_cases hsI : s = I
      · subst hsI
        rw [if_pos rfl, if_neg (by omega), if_pos (by push_cast; omega)]
      · rw [if_neg hsI]
        by_cases hc : s + 1 ≤ I ∧ I < Iend ∧ I < s + 1 + (k : Int)
        · rw [if_pos hc, if_pos (by push_cast; omega)]
        · rw [if_neg hc, if_neg (by push_cast; omega)]
    · rw [if_neg hs, if_neg (by omega)]
      rfl

/-- The loop over `[Istart, Iend)` sets the diagonal of row `I` once if `I` is in the
range, and not at all otherwise. -/
theorem count_diag_assemble (m n Istart Iend I : Int) :
    List.count (⟨I, I, 4⟩ : SetCall) (assemble m n Istart Iend []) =
      if Istart ≤ I ∧ I < Iend then 1 else 0 := by
  unfold assemble
  rw [count_diag_assembleLoop]
  by_cases h : Istart ≤ I ∧ I < Iend
  · rw [if_pos h, if_pos (by
      have := Int.toNat_of_nonneg (show 0 ≤ Iend - Istart by omega)
      omega)]
  · rw [if_neg h, if_neg (by omega)]

theorem ownership_start_nonneg (N : Int) (P : Nat) (ranges : Nat → Int × Int)
    (hv : ownershipValid N P ranges) (r : Nat) (hr : r < P) : 0 ≤ (ranges r).1 := by
  obtain ⟨_, h0, _, hle, hc⟩ := hv
  induction r with
  | zero => omega
  | succ k ih =>
    have := ih (by omega)
    have := hle k (by omega)
    have := hc k (by omega)
    omega

theorem ownership_ordered (N : Int) (P : Nat) (ranges : Nat → Int × Int)
    (hv : ownershipValid N P ranges) (r r' : Nat) (hrr : r < r') (hr : r' < P) :
    (ranges r).2 ≤ (ranges r').1 := by
  obtain ⟨_, _, _, hle, hc⟩ := hv
  induction r' with
  | zero => omega
  | succ k ih =>
    have e := hc k (by omega)
    by_cases hk : r = k
    · subst hk; omega
    · have := ih (by omega) (by omega)
      have := hle k (by omega)
      omega

theorem ownership_cover (N : Int) (P : Nat) (ranges : Nat → Int × Int)
    (hv : ownershipValid N P ranges) (I : Int) (h0 : 0 ≤ I) (k : Nat) (hk : k < P)
    (hI : I < (ranges k).2) : ∃ r, r < P ∧ (ranges r).1 ≤ I ∧ I < (ranges r).2 := by
  obtain ⟨_, hz, _, _, hc⟩ := hv
  induction k with
  | zero => exact ⟨0, hk, by omega, hI⟩
  | succ j ih =>
    by_cases hs : (ranges (j + 1)).1 ≤ I
    · exact ⟨j + 1, hk, hs, hI⟩
    · have e := hc j (by omega)
      exact ih (by omega) (by omega)

theorem allRanks_upTo (m n N : Int) (P : Nat) (ranges : Nat → Int × Int)
    (hv : ownershipValid N P ranges) (k : Nat) (hk : k < P) :
    ((List.range (k + 1)).map (fun r => rankStash m n (ranges r))).flatten =
      assemble m n 0 (ranges k).2 [] := by
  induction k with
  | zero =>
    obtain ⟨_, hz, _, _, _⟩ := hv
    simp [rankStash, hz, List.range_succ]
  | succ j ih =>
    have h0 := ownership_start_nonneg N P ranges hv (j + 1) hk
    obtain ⟨_, _, _, hle, hc⟩ := hv
    have e := hc j (by omega)
    have := hle (j + 1) hk
    rw [List.range_succ, List.map_append, List.flatten_append, ih (by omega)]
    simp only [List.map_cons, List.map_nil, List.flatten_cons, List.flatten_nil,
      List.append_nil, rankStash]
    rw [e]
    exact (assemble_split m n 0 (ranges (j + 1)).1 (ranges (j + 1)).2 h0 this).symm

/-- C5: for ownership ranges that are rank-ordered, contiguous and cover `[0, m*n)`,
each rank sets values only in rows of its own range; the calls of all ranks together
are the calls of the single-process assembly over `[0, m*n)`; and every global row is
assembled once, by the one rank whose range contains it, with the entries of the
single-process assembly. -/
theorem C5_ownership_assembly (m n : Int) (P : Nat) (ranges : Nat → Int × Int)
    (hv : ownershipValid (m * n) P ranges) :
    (∀ r, r < P → ∀ e ∈ rankStash m n (ranges r),
      (ranges r).1 ≤ e.row ∧ e.row < (ranges r).2) ∧
    allRanksStash m n P ranges = assemble m n 0 (m * n) [] ∧
    (∀ Ii, 0 ≤ Ii → Ii < m * n →
      List.count (⟨Ii, Ii, 4⟩ : SetCall) (allRanksStash m n P ranges) = 1 ∧
      ∃ r, r < P ∧ ((ranges r).1 ≤ Ii ∧ Ii < (ranges r).2) ∧
        (∀ r', r' < P → (∃ e ∈ rankStash m n (ranges r'), e.row = Ii) → r' = r) ∧
        (⟨Ii, Ii, 4⟩ : SetCall) ∈ rankStash m n (ranges r) ∧
        (∀ J, matEntry (rankStash m n (ranges r)) Ii J =
          matEntry (assemble m n 0 (m * n) []) Ii J)) := by
  have hall : allRanksStash m n P ranges = assemble m n 0 (m * n) [] := by
    have hP := hv.1
    have hN := hv.2.2.1
    have := allRanks_upTo m n (m * n) P ranges hv (P - 1) (by omega)
    rw [Nat.sub_add_cancel hP, hN] at this
    exact this
  have hrows : ∀ r, r < P → ∀ e ∈ rankStash m n (ranges r),
      (ranges r).1 ≤ e.row ∧ e.row < (ranges r).2 := fun r _ e he =>
    row_of_mem_assembleLoop m n _ _ _ e he
  refine ⟨hrows, hall, ?_⟩
  intro Ii h0 h1
  constructor
  · rw [hall, count_diag_assemble, if_pos ⟨h0, h1⟩]
  · obtain ⟨r, hr, hs, he⟩ := ownership_cover (m * n) P ranges hv Ii h0 (P - 1)
      (by have := hv.1; omega) (by rw [hv.2.2.1]; exact h1)
    refine ⟨r, hr, ⟨hs, he⟩, ?_, ?_, ?_⟩
    · rintro r' hr' ⟨e, hmem, hrow⟩
      have hb := hrows r' hr' e hmem
      rw [hrow] at hb
      by_contra hne
      rcases Nat.lt_or_gt_of_ne hne with hlt | hgt
      · have := ownership_ordered (m * n) P ranges hv r' r hlt hr
        omega
      · have := ownership_ordered (m * n) P ranges hv r r' hgt hr'
        omega
    · have hc : List.count (⟨Ii, Ii, 4⟩ : SetCall) (rankStash m n (ranges r)) = 1 := by
        unfold rankStash
        rw [count_diag_assemble, if_pos ⟨hs, he⟩]
      exact List.count_pos_iff.1 (by omega)
    · intro J
      unfold rankStash
      rw [matEntry_assemble_nil, matEntry_assemble_nil, if_pos ⟨hs, he⟩, if_pos ⟨h0, h1⟩]

/-- C5 for the 5x5 grid split over two ranks owning `[0, 12)` and `[12, 25)`. -/
theorem C5_ownership_assembly_witness :
    ownershipValid (5 * 5) 2 (fun r => if r = 0 then (0, 12) else (12, 25)) ∧
    allRanksStash 5 5 2 (fun r => if r = 0 then (0, 12) else (12, 25)) =
      assemble 5 5 0 (5 * 5) [] :=
  ⟨by decide,
    (C5_ownership_assembly 5 5 2 (fun r => if r = 0 then (0, 12) else (12, 25))
      (by decide)).2.1⟩

/-! ### Vector copies -/

theorem copyOutLoop_length {α : Type} (src : List α) (fuel i : Nat) (dst : List α) :
    (copyOutLoop src fuel i dst).length = dst.length := by
  induction fuel generalizing i dst with
  | zero => rfl
  | succ f ih =>
    unfold copyOutLoop
    split
    · rw [ih, List.length_set]
    · rfl

theorem copyOutLoop_getElem? {α : Type} (src : List α) (fuel i : Nat) (dst : List α)
    (k : Nat) (hlen : src.length ≤ dst.length) :
    (copyOutLoop src fuel i dst)[k]? =
      if i ≤ k ∧ k < i + fuel ∧ k < src.length then src[k]? else dst[k]? := by
  induction fuel generalizing i dst with
  | zero =>
    rw [if_neg (by omega)]
    rfl
  | succ f ih =>
    unfold copyOutLoop
    split
    · rename_i v hv
      have hi : i < src.length := by
        by_contra hc
        rw [List.getElem?_eq_none (by omega)] at hv
        exact absurd hv (by simp)
      rw [ih (i + 1) (dst.set i v) (by rw [List.length_set]; exact hlen)]
      by_cases hk : k = i
      · subst hk
        rw [if_neg (by omega), if_pos (by omega), List.getElem?_set, if_pos rfl,
          if_pos (by omega), hv]
      · have hs : (dst.set i v)[k]? = dst[k]? :=
          List.getElem?_set_ne (fun e => hk e.symm)
        rw [hs]
        by_cases hc : i + 1 ≤ k ∧ k < i + 1 + f ∧ k < src.length
        · rw [if_pos hc, if_pos (by omega)]
        · rw [if_neg hc, if_neg (by omega)]
    · rename_i hv
      have hi : src.length ≤ i := List.getElem?_eq_none_iff.1 hv
      rw [if_neg (by omega)]

/-- Copying out a whole vector into a buffer of the same length gives that vector. -/
theorem copyOutLoop_eq {α : Type} (src dst : List α) (h : dst.length = src.length) :
    copyOutLoop src src.length 0 dst = src := by
  apply List.ext_getElem?
  intro k
  rw [copyOutLoop_getElem? src src.length 0 dst k (by omega)]
  by_cases hk : k < src.length
  · rw [if_pos (by omega)]
  · rw [if_neg (by omega), List.getElem?_eq_none (by omega), List.getElem?_eq_none (by omega)]

theorem tpetraVector_of_length {α : Type} (v : List α) :
    tpetraVector v.length (ArrayView v v.length) = some v := by
  unfold tpetraVector ArrayView
  rw [List.take_length, if_neg (by omega), List.take_length]

/-- C6: the vector bridge of the Amesos2 example is a per-element copy: for a source
vector `u` of local length `L` (the local size of the row map of `epA`), `epu` has local
length `L`, `epu[k] = u[k]` for every `k < L`, and `u` is unchanged. -/
theorem C6_vector_copy {α : Type} (u : List α) (L : Nat) (hL : u.length = L) :
    ∃ epu, copyVecToTpetra L u = some (u, epu) ∧ epu.length = L ∧
      (∀ k, k < L → epu[k]? = u[k]?) ∧ epu = u := by
  subst hL
  refine ⟨u, ?_, rfl, fun _ _ => rfl, rfl⟩
  unfold copyVecToTpetra memcpy
  simp only [List.take_length]
  rw [tpetraVector_of_length]

/-- C6 on a vector of three scalars. -/
theorem C6_vector_copy_witness :
    [(1 : Int), 2, 3].length = 3 ∧
    ∃ epu, copyVecToTpetra 3 [(1 : Int), 2, 3] = some ([1, 2, 3], epu) ∧ epu.length = 3 ∧
      (∀ k, k < 3 → epu[k]? = [(1 : Int), 2, 3][k]?) ∧ epu = [1, 2, 3] :=
  ⟨rfl, C6_vector_copy [(1 : Int), 2, 3] 3 rfl⟩

/-- C7: for `x` and `y` of equal local length `L`, the local size of the domain map of
the preconditioner, `ShellApplyML` returns 0, leaves `x` unchanged, and leaves in
`y[k]`, for every `k < L` and whatever `y` held, the `k`-th entry of the
preconditioner applied to a copy of the values of `x`. -/
theorem C7_ShellApplyML {α : Type} (mlp : MueLuOp α) (x y : List α) (L : Nat)
    (hx : x.length = L) (hy : y.length = L) (hd : mlp.domainLocal = L)
    (hop : (mlp.op x).length = L) :
    ∃ y', ShellApplyML 0 0 mlp x y = some (0, x, y') ∧ y'.length = L ∧
      (∀ k, k < L → y'[k]? = (mlp.op x)[k]?) := by
  subst hx
  refine ⟨mlp.op x, ?_, hop, fun _ _ => rfl⟩
  unfold ShellApplyML
  simp only [ne_eq, not_true_eq_false, if_false, hd]
  rw [tpetraVector_of_length, ← hy, tpetraVector_of_length]
  simp only [MueLuOp.apply]
  rw [copyOutLoop_eq (mlp.op x) y (by omega)]

/-- C7 for the operator that doubles every entry, on vectors of three scalars. -/
theorem C7_ShellApplyML_witness :
    ([(1 : Int), 2, 3].length = 3 ∧ [(7 : Int), 8, 9].length = 3 ∧
      (⟨3, fun l => l.map (fun v => 2 * v)⟩ : MueLuOp Int).domainLocal = 3 ∧
      ((⟨3, fun l => l.map (fun v => 2 * v)⟩ : MueLuOp Int).op [1, 2, 3]).length = 3) ∧
    ∃ y', ShellApplyML 0 0 (⟨3, fun l => l.map (fun v => 2 * v)⟩ : MueLuOp Int)
        [1, 2, 3] [7, 8, 9] = some (0, [1, 2, 3], y') ∧ y'.length = 3 ∧
      (∀ k, k < 3 → y'[k]? = ([1, 2, 3].map (fun v => 2 * v))[k]?) :=
  ⟨⟨rfl, rfl, rfl, rfl⟩,
    C7_ShellApplyML (⟨3, fun l => l.map (fun v => 2 * v)⟩ : MueLuOp Int) [1, 2, 3] [7, 8, 9] 3
      rfl rfl rfl rfl⟩

/-! ### Exit codes and options -/

/-- C8: in the Anasazi example an unconverged solve makes rank 0 return `EXIT_FAILURE`
while every other rank goes on and returns `EXIT_SUCCESS`; a converged solve makes
every rank return `EXIT_SUCCESS`. -/
theorem C8_anasazi_exit_depends_on_rank :
    anasaziMain 0 ReturnType.Unconverged 1 0 = EXIT_SUCCESS ∧
    anasaziMain 0 ReturnType.Unconverged 0 0 = EXIT_FAILURE ∧
    (∀ rank, anasaziMain 0 ReturnType.Unconverged rank 0 =
      if rank = 0 then EXIT_FAILURE else EXIT_SUCCESS) ∧
    (∀ rank, anasaziMain 0 ReturnType.Converged rank 0 = EXIT_SUCCESS) := by
  refine ⟨by decide, by decide, ?_, ?_⟩
  · intro rank
    unfold anasaziMain
    by_cases h : rank = 0 <;> simp [h]
  · intro rank
    unfold anasaziMain
    simp

/-- C9: called with `-mx 150 -my 150`, the MueLu example still uses the 50-by-50 mesh:
the matrix it assembles has 2500 rows, not 22500 (the Amesos2 example does read its
options `-m`, `-n`). -/
theorem C9_muelu_ignores_mesh_options :
    mueluMeshDims [("-mx", 150), ("-my", 150)] = (50, 50) ∧
    mueluGlobalRows [("-mx", 150), ("-my", 150)] = 2500 ∧
    mueluGlobalRows [("-mx", 150), ("-my", 150)] ≠ 150 * 150 ∧
    (∀ e ∈ mueluMat [("-mx", 150), ("-my", 150)], 0 ≤ e.row ∧ e.row < 2500) ∧
    List.count (⟨2499, 2499, 4⟩ : SetCall) (mueluMat [("-mx", 150), ("-my", 150)]) = 1 ∧
    amesos2MeshDims [("-m", 150), ("-n", 150)] = (150, 150) := by
  refine ⟨rfl, rfl, by decide, ?_, ?_, by decide⟩
  · intro e he
    exact row_of_mem_assembleLoop 50 50 2500 _ 0 e he
  · have h := count_diag_assemble 50 50 0 2500 2499
    rw [if_pos (by decide)] at h
    exact h

/-- The arithmetic of the grid coordinates of a row `0 ≤ I < m*n`, `n ≥ 1`. -/
theorem grid_facts (m n I : Int) (hn : 1 ≤ n) (h0 : 0 ≤ I) (h1 : I < m * n) :
    0 ≤ gridI n I ∧ gridI n I < m ∧ 0 ≤ gridJ n I ∧ gridJ n I < n ∧
    I = gridI n I * n + gridJ n I ∧ 0 ≤ gridI n I * n ∧
    (0 < gridI n I → n ≤ gridI n I * n) ∧ gridI n I * n ≤ m * n - n ∧
    (gridI n I < m - 1 → gridI n I * n + n ≤ m * n - n) := by
  have hpos : (0 : Int) < n := by omega
  have ei := gridI_eq_ediv n I hn h0
  have ej := gridJ_eq_emod n I hn h0
  have hi0 : 0 ≤ gridI n I := by rw [ei]; exact Int.ediv_nonneg h0 (by omega)
  have hi1 : gridI n I < m := by rw [ei]; exact (Int.ediv_lt_iff_lt_mul hpos).2 h1
  have hj0 : 0 ≤ gridJ n I := by rw [ej]; exact Int.emod_nonneg I (by omega)
  have hj1 : gridJ n I < n := by rw [ej]; exact Int.emod_lt_of_pos I hpos
  have hd : I = gridI n I * n + gridJ n I := by unfold gridJ; omega
  have f0 : 0 ≤ gridI n I * n := mul_nonneg hi0 (by omega)
  have f1 : 0 < gridI n I → n ≤ gridI n I * n := fun h =>
    le_mul_of_one_le_left (by omega) (by omega)
  have f2 : gridI n I * n ≤ m * n - n := by
    have := Int.mul_le_mul_of_nonneg_right (show gridI n I ≤ m - 1 by omega)
      (show (0 : Int) ≤ n by omega)
    rw [sub_mul, one_mul] at this
    exact this
  have f3 : gridI n I < m - 1 → gridI n I * n + n ≤ m * n - n := fun h => by
    have := Int.mul_le_mul_of_nonneg_right (show gridI n I + 1 ≤ m - 1 by omega)
      (show (0 : Int) ≤ n by omega)
    rw [sub_mul, add_mul, one_mul] at this
    exact this
  exact ⟨hi0, hi1, hj0, hj1, hd, f0, f1, f2, f3⟩

/-- Every call of the loop body is one of the five guarded calls. -/
theorem mem_loopBody (m n Ii : Int) (e : SetCall) (h : e ∈ loopBody m n [] Ii) :
    (gridI n Ii > 0 ∧ e = ⟨Ii, Ii - n, -1⟩) ∨ (gridI n Ii < m - 1 ∧ e = ⟨Ii, Ii + n, -1⟩) ∨
    (gridJ n Ii > 0 ∧ e = ⟨Ii, Ii - 1, -1⟩) ∨ (gridJ n Ii < n - 1 ∧ e = ⟨Ii, Ii + 1, -1⟩) ∨
    e = ⟨Ii, Ii, 4⟩ := by
  unfold loopBody MatSetValues at h
  simp only [] at h
  by_cases h1 : gridI n Ii > 0 <;> by_cases h2 : gridI n Ii < m - 1 <;>
    by_cases h3 : gridJ n Ii > 0 <;> by_cases h4 : gridJ n Ii < n - 1 <;>
    simp only [h1, h2, h3, h4, if_true, if_false, List.nil_append, List.append_assoc,
      List.cons_append, List.mem_cons, List.mem_singleton, List.not_mem_nil, or_false] at h <;>
    simp only [h1, h2, h3, h4, true_and, false_and, false_or, gt_iff_lt] <;> tauto

/-- Every call of the loop was made by the loop body for its own row. -/
theorem mem_assembleLoop (m n Iend : Int) (fuel : Nat) (s : Int) (e : SetCall)
    (h : e ∈ assembleLoop m n Iend fuel s []) : e ∈ loopBody m n [] e.row := by
  induction fuel generalizing s with
  | zero => simp [assembleLoop] at h
  | succ k ih =>
    rw [assembleLoop_succ] at h
    split_ifs at h with hs
    · rw [assembleLoop_append, List.mem_append] at h
      rcases h with h | h
      · rw [row_of_mem_loopBody m n s e h]
        exact h
      · exact ih (s + 1) h
    · simp at h

/-- On the integers: for `n ≥ 1` and a row `0 ≤ Ii < m*n` each guarded column lies in
`[0, m*n)`, and so does every column the loop passes over a range inside `[0, m*n)`. -/
theorem columns_valid_int (m n Ii : Int) (hn : 1 ≤ n) (h0 : 0 ≤ Ii) (h1 : Ii < m * n) :
    ((gridI n Ii > 0 → 0 ≤ Ii - n ∧ Ii - n < m * n) ∧
      (gridI n Ii < m - 1 → 0 ≤ Ii + n ∧ Ii + n < m * n) ∧
      (gridJ n Ii > 0 → 0 ≤ Ii - 1 ∧ Ii - 1 < m * n) ∧
      (gridJ n Ii < n - 1 → 0 ≤ Ii + 1 ∧ Ii + 1 < m * n)) ∧
    (∀ e ∈ loopBody m n [] Ii, 0 ≤ e.col ∧ e.col < m * n) ∧
    (∀ Istart Iend, 0 ≤ Istart → Iend ≤ m * n →
      ∀ e ∈ assemble m n Istart Iend [], 0 ≤ e.col ∧ e.col < m * n) := by
  have guards : ∀ I, 0 ≤ I → I < m * n →
      ((gridI n I > 0 → 0 ≤ I - n ∧ I - n < m * n) ∧
      (gridI n I < m - 1 → 0 ≤ I + n ∧ I + n < m * n) ∧
      (gridJ n I > 0 → 0 ≤ I - 1 ∧ I - 1 < m * n) ∧
      (gridJ n I < n - 1 → 0 ≤ I + 1 ∧ I + 1 < m * n)) := by
    intro I hI0 hI1
    obtain ⟨hi0, hi1, hj0, hj1, hd, f0, f1, f2, f3⟩ := grid_facts m n I hn hI0 hI1
    refine ⟨fun h => ?_, fun h => ?_, fun h => ?_, fun h => ?_⟩
    · have := f1 h
      omega
    · have := f3 h
      omega
    · omega
    · omega
  have body : ∀ I, 0 ≤ I → I < m * n →
      ∀ e ∈ loopBody m n [] I, 0 ≤ e.col ∧ e.col < m * n := by
    intro I hI0 hI1 e he
    obtain ⟨g1, g2, g3, g4⟩ := guards I hI0 hI1
    rcases mem_loopBody m n I e he with ⟨h, rfl⟩ | ⟨h, rfl⟩ | ⟨h, rfl⟩ | ⟨h, rfl⟩ | rfl
    · exact g1 h
    · exact g2 h
    · exact g3 h
    · exact g4 h
    · exact ⟨hI0, hI1⟩
  refine ⟨guards Ii h0 h1, body Ii h0 h1, ?_⟩
  intro Istart Iend hs he e hmem
  have hrow := row_of_mem_assembleLoop m n Iend _ Istart e hmem
  exact body e.row (by omega) (by omega) e (mem_assembleLoop m n Iend _ Istart e hmem)

theorem rowCalls_loopBody (m n s I : Int) :
    rowCalls (loopBody m n [] s) I = if s = I then loopBody m n [] I else [] := by
  unfold rowCalls
  split_ifs with h
  · subst h
    exact List.filter_eq_self.2 (fun e he => by
      simp [row_of_mem_loopBody m n s e he])
  · exact List.filter_eq_nil_iff.2 (fun e he => by
      simp [row_of_mem_loopBody m n s e he, h])

theorem rowCalls_assembleLoop (m n Iend I : Int) (fuel : Nat) (s : Int) :
    rowCalls (assembleLoop m n Iend fuel s []) I =
      if s ≤ I ∧ I < Iend ∧ I < s + fuel then loopBody m n [] I else [] := by
  induction fuel generalizing s with
  | zero =>
    have : ¬ (s ≤ I ∧ I < Iend ∧ I < s + ((0 : Nat) : Int)) := by
      simp only [Nat.cast_zero]; omega
    rw [if_neg this]; rfl
  | succ k ih =>
    rw [assembleLoop_succ]
    by_cases hs : s < Iend
    · have happ : rowCalls (loopBody m n [] s ++ assembleLoop m n Iend k (s + 1) []) I =
          rowCalls (loopBody m n [] s) I ++ rowCalls (assembleLoop m n Iend k (s + 1) []) I :=
        List.filter_append _ _
      rw [if_pos hs, assembleLoop_append, happ, ih, rowCalls_loopBody]
      by_cases hsI : s = I
      · subst hsI
        rw [if_pos rfl, if_neg (by omega), if_pos (by push_cast; omega), List.append_nil]
      · rw [if_neg hsI, List.nil_append]
        by_cases hc : s + 1 ≤ I ∧ I < Iend ∧ I < s + 1 + (k : Int)
        · rw [if_pos hc, if_pos (by push_cast; omega)]
        · rw [if_neg hc, if_neg (by push_cast; omega)]
    · rw [if_neg hs, if_neg (by omega)]
      rfl

/-- The calls the loop over `[Istart, Iend)` makes for a row of its range are those of
the loop body for that row, in the same order. -/
theorem rowCalls_assemble (m n Istart Iend I : Int) (hs : Istart ≤ I) (he : I < Iend) :
    rowCalls (assemble m n Istart Iend []) I = loopBody m n [] I := by
  unfold assemble
  rw [rowCalls_assembleLoop, if_pos (by
    have := Int.toNat_of_nonneg (show 0 ≤ Iend - Istart by omega)
    omega)]

theorem matEntryAdd_rowCalls (A : Mat) (I J : Int) :
    matEntryAdd (rowCalls A I) I J = matEntryAdd A I J := by
  unfold matEntryAdd rowCalls
  rw [List.filter_filter]
  have : (fun e : SetCall => decide (e.row = I ∧ e.col = J) && decide (e.row = I)) =
      (fun e : SetCall => decide (e.row = I ∧ e.col = J)) := by
    funext e
    by_cases h1 : e.row = I <;> by_cases h2 : e.col = J <;> simp [h1, h2]
  rw [this]

theorem wrapInt_eq (x : Int) (h0 : -2147483648 ≤ x) (h1 : x ≤ 2147483647) : wrapInt x = x := by
  unfold wrapInt
  omega

theorem wrapInt_range (x : Int) : -2147483648 ≤ wrapInt x ∧ wrapInt x ≤ 2147483647 := by
  unfold wrapInt
  omega

/-- For a representable `m*n` the global size is `m*n`. -/
theorem globalRows_eq (m n : Int) (h0 : 0 ≤ m * n) (h1 : m * n ≤ PETSC_MAX_INT) :
    globalRows m n = m * n := by
  unfold PETSC_MAX_INT at h1
  exact wrapInt_eq _ (by omega) h1

/-- Where no intermediate value leaves the range of `PetscInt`, the loop body in
`PetscInt` arithmetic is the loop body on the integers. -/
theorem loopBody32_eq_of_fits (m n : Int) (A : Mat) (Ii : Int) (hn : 1 ≤ n)
    (hn1 : n ≤ PETSC_MAX_INT) (hm0 : -PETSC_MAX_INT ≤ m) (hm1 : m ≤ PETSC_MAX_INT)
    (h0 : 0 ≤ Ii) (h1 : Ii < PETSC_MAX_INT)
    (h2 : gridI n Ii < m - 1 → Ii + n ≤ PETSC_MAX_INT) :
    gridI32 n Ii = gridI n Ii ∧ gridJ32 n Ii = gridJ n Ii ∧
    loopBody32 m n A Ii = loopBody m n A Ii := by
  unfold PETSC_MAX_INT at hn1 hm0 hm1 h1 h2
  have hpos : (0 : Int) < n := by omega
  have gi := gridI_eq_ediv n Ii hn h0
  have gj := gridJ_eq_emod n Ii hn h0
  have hi0 : 0 ≤ Ii / n := Int.ediv_nonneg h0 (by omega)
  have hj0 := Int.emod_nonneg Ii (show n ≠ 0 by omega)
  have hj1 := Int.emod_lt_of_pos Ii hpos
  have hd := Int.emod_add_ediv Ii n
  have hc : n * (Ii / n) = Ii / n * n := mul_comm _ _
  have hle : Ii / n ≤ Ii / n * n := le_mul_of_one_le_right hi0 hn
  have ei : gridI32 n Ii = gridI n Ii := by
    show wrapInt (gridI n Ii) = gridI n Ii
    rw [gi]
    exact wrapInt_eq (Ii / n) (by omega) (by omega)
  have ej : gridJ32 n Ii = gridJ n Ii := by
    unfold gridJ32
    have hjj : Ii - Ii / n * n = Ii % n := by omega
    rw [ei, gi, wrapInt_eq (Ii / n * n) (by omega) (by omega), gj, hjj]
    exact wrapInt_eq (Ii % n) (by omega) (by omega)
  refine ⟨ei, ej, ?_⟩
  unfold loopBody32 loopBody
  simp only [ei, ej]
  have w1 : wrapInt (m - 1) = m - 1 := wrapInt_eq _ (by omega) (by omega)
  have w2 : wrapInt (n - 1) = n - 1 := wrapInt_eq _ (by omega) (by omega)
  have w3 : wrapInt (Ii - n) = Ii - n := wrapInt_eq _ (by omega) (by omega)
  have w4 : wrapInt (Ii - 1) = Ii - 1 := wrapInt_eq _ (by omega) (by omega)
  have w5 : gridI n Ii < m - 1 → wrapInt (Ii + n) = Ii + n := fun h =>
    wrapInt_eq _ (by omega) (h2 h)
  have w6 : wrapInt (Ii + 1) = Ii + 1 := wrapInt_eq _ (by omega) (by omega)
  rw [w1, w2, w3, w4, w6]
  by_cases g2 : gridI n Ii < m - 1
  · rw [w5 g2]
  · simp only [g2, if_false]

theorem assembleLoop32_eq_of_fits (m n Iend : Int) (fuel : Nat) (s : Int) (A : Mat)
    (hn : 1 ≤ n) (hn1 : n ≤ PETSC_MAX_INT) (hm0 : -PETSC_MAX_INT ≤ m)
    (hm1 : m ≤ PETSC_MAX_INT) (hs : 0 ≤ s) (he : Iend ≤ PETSC_MAX_INT)
    (hfit : ∀ I, 0 ≤ I → I < Iend → gridI n I < m - 1 → I + n ≤ PETSC_MAX_INT) :
    assembleLoop32 m n Iend fuel s A = assembleLoop m n Iend fuel s A := by
  induction fuel generalizing s A with
  | zero => rfl
  | succ k ih =>
    unfold assembleLoop32 assembleLoop
    by_cases h : s < Iend
    · have hw : wrapInt (s + 1) = s + 1 :=
        wrapInt_eq _ (by omega) (by unfold PETSC_MAX_INT at he; omega)
      rw [if_pos h, if_pos h, hw,
        (loopBody32_eq_of_fits m n A s hn hn1 hm0 hm1 hs (by omega) (hfit s hs h)).2.2]
      exact ih (s + 1) _ (by omega)
    · rw [if_neg h, if_neg h]

/-- For a row of a grid of representable size the loop body in `PetscInt` arithmetic is
the loop body on the integers. -/
theorem loopBody32_eq (m n : Int) (A : Mat) (Ii : Int) (hn : 1 ≤ n)
    (hrep : m * n ≤ PETSC_MAX_INT) (h0 : 0 ≤ Ii) (h1 : Ii < m * n) :
    gridI32 n Ii = gridI n Ii ∧ gridJ32 n Ii = gridJ n Ii ∧
    loopBody32 m n A Ii = loopBody m n A Ii := by
  obtain ⟨hi0, hi1, hj0, hj1, hd, f0, f1, f2, f3⟩ := grid_facts m n Ii hn h0 h1
  have hm : m ≤ m * n := le_mul_of_one_le_right (by omega) hn
  have hn2 : n ≤ m * n := le_mul_of_one_le_left (by omega) (by omega)
  exact loopBody32_eq_of_fits m n A Ii hn (by omega) (by unfold PETSC_MAX_INT; omega)
    (by omega) h0 (by omega) (fun h => by have := f3 h; omega)

/-- For an ownership range inside `[0, m*n)` with `m*n` representable, the loop in
`PetscInt` arithmetic is the loop on the integers. -/
theorem assemble32_eq (m n Istart Iend : Int) (A : Mat) (hn : 1 ≤ n)
    (hrep : m * n ≤ PETSC_MAX_INT) (hs : 0 ≤ Istart) (he : Iend ≤ m * n) :
    assemble32 m n Istart Iend A = assemble m n Istart Iend A := by
  by_cases hne : Istart < Iend
  · have hm1 : 1 ≤ m := by
      by_contra hc
      have : m * n ≤ 0 := mul_nonpos_of_nonpos_of_nonneg (by omega) (by omega)
      omega
    have hm : m ≤ m * n := le_mul_of_one_le_right (by omega) hn
    have hn2 : n ≤ m * n := le_mul_of_one_le_left (by omega) (by omega)
    exact assembleLoop32_eq_of_fits m n Iend _ Istart A hn (by omega)
      (by unfold PETSC_MAX_INT; omega) (by omega) hs (by omega)
      (fun I hI0 hI1 g => by
        obtain ⟨_, _, _, hj1, hd, _, _, _, f3⟩ := grid_facts m n I hn hI0 (by omega)
        have := f3 g
        omega)
  · unfold assemble32 assemble
    have : (Iend - Istart).toNat = 0 := by omega
    rw [this]
    rfl

/-- On the 5x5 grid the single process assembles, in `PetscInt` arithmetic, the matrix
of the loop on the integers over `[0, 25)`. -/
theorem mainAssemble_5_5 : mainAssemble 5 5 = assemble 5 5 0 25 [] := by
  have hg : globalRows 5 5 = 25 := by decide
  unfold mainAssemble
  rw [hg]
  exact assemble32_eq 5 5 0 25 [] (by decide) (by decide) (by decide) (by decide)

/-! ### The mesh 65536 x 65537, whose size is not representable -/

/-- At `-m 65536 -n 65537` the size `m*n` wraps to 65536 and the single process owns
the rows `[0, 65536)`; on them no value of the loop leaves the range of `PetscInt`. -/
theorem mainAssemble_65536_65537 :
    globalRows 65536 65537 = 65536 ∧
    mainAssemble 65536 65537 = assemble 65536 65537 0 65536 [] := by
  have hg : globalRows 65536 65537 = 65536 := by decide
  refine ⟨hg, ?_⟩
  unfold mainAssemble
  rw [hg]
  exact assembleLoop32_eq_of_fits 65536 65537 65536 _ 0 [] (by decide) (by decide)
    (by decide) (by decide) (by decide) (by decide)
    (fun I _ hI _ => by unfold PETSC_MAX_INT; omega)

/-- At `-m 65536 -n 65537` row 0 is given column 65537 and row 65537 is not assembled. -/
theorem entries_65536_65537 :
    matEntry (mainAssemble 65536 65537) 0 65537 = some (-1) ∧
    (∀ J, matEntry (mainAssemble 65536 65537) 65537 J = none) := by
  rw [mainAssemble_65536_65537.2]
  constructor
  · rw [matEntry_assemble_nil, if_pos (by decide)]
    decide
  · intro J
    rw [matEntry_assemble_nil, if_neg (by decide)]

/-! ### The stencil for representable sizes -/

/-- C1 fails as stated: with `m = 65536`, `n = 65537` (both at least 1 and valid
`PetscInt` values) the matrix has `m*n` wrapped to 65536 rows; row `Ii = 65537` satisfies
`0 ≤ Ii < m*n` and the claim gives it the value 4 at column `Ii`, but the loop never
assembles it; and row 0 is given column 65537, which the matrix does not have. -/
theorem C1_assembly_row_counterexample :
    ((1 : Int) ≤ 65536 ∧ (1 : Int) ≤ 65537 ∧ (65537 : Int) ≤ PETSC_MAX_INT) ∧
    globalRows 65536 65537 = 65536 ∧
    ((0 : Int) ≤ 65537 ∧ (65537 : Int) < 65536 * 65537) ∧
    specRow 65536 65537 65537 65537 = some 4 ∧
    matEntry (mainAssemble 65536 65537) 65537 65537 = none ∧
    matEntry (mainAssemble 65536 65537) 65537 65537 ≠ specRow 65536 65537 65537 65537 ∧
    matEntry (mainAssemble 65536 65537) 0 65537 = some (-1) ∧
    ¬ ((65537 : Int) < globalRows 65536 65537) := by
  have hs : specRow 65536 65537 65537 65537 = some 4 := by
    unfold specRow
    rw [if_pos rfl]
  have hn := entries_65536_65537.2 65537
  refine ⟨by decide, mainAssemble_65536_65537.1, by decide, hs, hn, ?_,
    entries_65536_65537.1, by decide⟩
  rw [hn, hs]
  exact fun h => by cases h

/-- C1, amended: for `n ≥ 1` with `m*n` representable in `PetscInt`
(`m*n ≤ 2147483647`) and a global row `0 ≤ Ii < m*n` of the ownership range
`[Istart, Iend)` inside `[0, m*n)`, the matrix has `m*n` rows, the loop computes
`(i, j) = (Ii / n, Ii mod n)` with `0 ≤ i < m` and `0 ≤ j < n`, and leaves row `Ii` with
value 4 at column `Ii`, value -1 at column `i'*n + j'` of each of the four neighbours
that lies in the grid, and every other column unset; so does the single process that
owns all rows. -/
theorem C1_assembly_row (m n Ii Istart Iend : Int) (hn : 1 ≤ n)
    (hrep : m * n ≤ PETSC_MAX_INT) (h0 : 0 ≤ Ii) (h1 : Ii < m * n)
    (hs0 : 0 ≤ Istart) (hs : Istart ≤ Ii) (he : Ii < Iend) (he1 : Iend ≤ m * n) :
    globalRows m n = m * n ∧
    (gridI32 n Ii = Ii / n ∧ gridJ32 n Ii = Ii % n) ∧
    (0 ≤ gridI32 n Ii ∧ gridI32 n Ii < m ∧ 0 ≤ gridJ32 n Ii ∧ gridJ32 n Ii < n) ∧
    (∀ J, matEntry (assemble32 m n Istart Iend []) Ii J =
      if J = Ii then some 4
      else if ∃ p ∈ specNeighbours (gridI32 n Ii) (gridJ32 n Ii),
          specInGrid m n p ∧ J = p.1 * n + p.2 then some (-1)
      else none) ∧
    (∀ J, matEntry (mainAssemble m n) Ii J =
      if J = Ii then some 4
      else if ∃ p ∈ specNeighbours (gridI32 n Ii) (gridJ32 n Ii),
          specInGrid m n p ∧ J = p.1 * n + p.2 then some (-1)
      else none) := by
  have hg := globalRows_eq m n (by omega) hrep
  obtain ⟨ei, ej, _⟩ := loopBody32_eq m n [] Ii hn hrep h0 h1
  obtain ⟨⟨e1, e2⟩, hb, hrow⟩ := assembly_row_int m n Ii Istart Iend hn h0 h1 hs he
  obtain ⟨_, _, hrow0⟩ := assembly_row_int m n Ii 0 (m * n) hn h0 h1 h0 h1
  refine ⟨hg, ?_, ?_, ?_, ?_⟩
  · rw [ei, ej]; exact ⟨e1, e2⟩
  · rw [ei, ej]; exact hb
  · intro J
    rw [assemble32_eq m n Istart Iend [] hn hrep hs0 he1, ei, ej]
    exact hrow J
  · intro J
    unfold mainAssemble
    rw [hg, assemble32_eq m n 0 (m * n) [] hn hrep (le_refl 0) (le_refl _), ei, ej]
    exact hrow0 J

/-- C1 at the centre of the 5x5 grid on a single process. -/
theorem C1_assembly_row_witness :
    ((1 : Int) ≤ 5 ∧ (5 : Int) * 5 ≤ PETSC_MAX_INT ∧ (0 : Int) ≤ 12 ∧ (12 : Int) < 5 * 5 ∧
      (0 : Int) ≤ 0 ∧ (12 : Int) < 25 ∧ (25 : Int) ≤ 5 * 5) ∧
    globalRows 5 5 = 5 * 5 ∧
    (gridI32 5 12 = 12 / 5 ∧ gridJ32 5 12 = 12 % 5) ∧
    (0 ≤ gridI32 5 12 ∧ gridI32 5 12 < 5 ∧ 0 ≤ gridJ32 5 12 ∧ gridJ32 5 12 < 5) ∧
    (∀ J, matEntry (assemble32 5 5 0 25 []) 12 J =
      if J = 12 then some 4
      else if ∃ p ∈ specNeighbours (gridI32 5 12) (gridJ32 5 12),
          specInGrid 5 5 p ∧ J = p.1 * 5 + p.2 then some (-1)
      else none) ∧
    (∀ J, matEntry (mainAssemble 5 5) 12 J =
      if J = 12 then some 4
      else if ∃ p ∈ specNeighbours (gridI32 5 12) (gridJ32 5 12),
          specInGrid 5 5 p ∧ J = p.1 * 5 + p.2 then some (-1)
      else none) :=
  ⟨by decide,
    C1_assembly_row 5 5 12 0 25 (by decide) (by decide) (by decide) (by decide) (by decide)
      (by decide) (by decide) (by decide)⟩

/-- C11 fails as stated: with `m = 65536`, `n = 65537` the matrix has 65536 rows and
columns (`m*n` wrapped); for its row `Ii = 0` the guard `i < m-1` holds and the loop
passes `J = Ii + n = 65537` to `MatSetValues`, which is not below the number of
columns. -/
theorem C11_columns_valid_counterexample :
    ((1 : Int) ≤ 65536 ∧ (1 : Int) ≤ 65537 ∧ (65537 : Int) ≤ PETSC_MAX_INT) ∧
    globalRows 65536 65537 = 65536 ∧
    ((0 : Int) ≤ 0 ∧ (0 : Int) < globalRows 65536 65537 ∧ (0 : Int) < 65536 * 65537) ∧
    gridI32 65537 0 < wrapInt (65536 - 1) ∧
    wrapInt (0 + 65537) = 65537 ∧
    (⟨0, 65537, -1⟩ : SetCall) ∈ loopBody32 65536 65537 [] 0 ∧
    (⟨0, 65537, -1⟩ : SetCall) ∈ mainAssemble 65536 65537 ∧
    ¬ ((65537 : Int) < globalRows 65536 65537) := by
  refine ⟨by decide, by decide, by decide, by decide, by decide, by decide, ?_, by decide⟩
  rw [mainAssemble_65536_65537.2]
  have hrc := rowCalls_assemble 65536 65537 0 65536 0 (by decide) (by decide)
  have hm : (⟨0, 65537, -1⟩ : SetCall) ∈ rowCalls (assemble 65536 65537 0 65536 []) 0 := by
    rw [hrc]
    decide
  exact (List.mem_filter.1 hm).1

/-- C11, amended: for `n ≥ 1` with `m*n` representable in `PetscInt`
(`m*n ≤ 2147483647`) and a row `0 ≤ Ii < m*n`, each `J` computed as `Ii - n`, `Ii + n`,
`Ii - 1` or `Ii + 1` under its guard `i > 0`, `i < m-1`, `j > 0`, `j < n-1` satisfies
`0 ≤ J < m*n`, the number of columns of the matrix; hence every column the loop passes
to `MatSetValues`, for that row and over all rows, is a valid global column. -/
theorem C11_columns_valid (m n Ii : Int) (hn : 1 ≤ n) (hrep : m * n ≤ PETSC_MAX_INT)
    (h0 : 0 ≤ Ii) (h1 : Ii < m * n) :
    globalRows m n = m * n ∧
    ((gridI32 n Ii > 0 → 0 ≤ wrapInt (Ii - n) ∧ wrapInt (Ii - n) < globalRows m n) ∧
      (gridI32 n Ii < wrapInt (m - 1) →
        0 ≤ wrapInt (Ii + n) ∧ wrapInt (Ii + n) < globalRows m n) ∧
      (gridJ32 n Ii > 0 → 0 ≤ wrapInt (Ii - 1) ∧ wrapInt (Ii - 1) < globalRows m n) ∧
      (gridJ32 n Ii < wrapInt (n - 1) →
        0 ≤ wrapInt (Ii + 1) ∧ wrapInt (Ii + 1) < globalRows m n)) ∧
    (∀ e ∈ loopBody32 m n [] Ii, 0 ≤ e.col ∧ e.col < globalRows m n) ∧
    (∀ e ∈ mainAssemble m n, 0 ≤ e.col ∧ e.col < globalRows m n) ∧
    (∀ Istart Iend, 0 ≤ Istart → Iend ≤ globalRows m n →
      ∀ e ∈ assemble32 m n Istart Iend [], 0 ≤ e.col ∧ e.col < globalRows m n) := by
  have hg := globalRows_eq m n (by omega) hrep
  obtain ⟨ei, ej, eb⟩ := loopBody32_eq m n [] Ii hn hrep h0 h1
  obtain ⟨⟨g1, g2, g3, g4⟩, hbody, hall⟩ := columns_valid_int m n Ii hn h0 h1
  obtain ⟨hi0, hi1, hj0, hj1, hd, f0, f1, f2, f3⟩ := grid_facts m n Ii hn h0 h1
  have hm : m ≤ m * n := le_mul_of_one_le_right (by omega) hn
  have hn2 : n ≤ m * n := le_mul_of_one_le_left (by omega) (by omega)
  have hmax : m * n ≤ 2147483647 := hrep
  have w1 : wrapInt (m - 1) = m - 1 := wrapInt_eq _ (by omega) (by omega)
  have w2 : wrapInt (n - 1) = n - 1 := wrapInt_eq _ (by omega) (by omega)
  have w3 : wrapInt (Ii - n) = Ii - n := wrapInt_eq _ (by omega) (by omega)
  have w4 : wrapInt (Ii - 1) = Ii - 1 := wrapInt_eq _ (by omega) (by omega)
  have w6 : wrapInt (Ii + 1) = Ii + 1 := wrapInt_eq _ (by omega) (by omega)
  rw [hg, ei, ej, eb, w1, w2, w3, w4, w6]
  refine ⟨rfl, ⟨g1, fun h => ?_, g3, g4⟩, hbody, ?_, ?_⟩
  · have := g2 h
    rw [wrapInt_eq (Ii + n) (by omega) (by omega)]
    exact this
  · intro e he
    unfold mainAssemble at he
    rw [hg, assemble32_eq m n 0 (m * n) [] hn hrep (le_refl 0) (le_refl _)] at he
    exact hall 0 (m * n) (le_refl 0) (le_refl _) e he
  · intro Istart Iend hs he e hmem
    rw [assemble32_eq m n Istart Iend [] hn hrep hs he] at hmem
    exact hall Istart Iend hs he e hmem

/-- C11 at the centre of the 5x5 grid: the four neighbour columns 7, 17, 11, 13 lie in
`[0, 25)`. -/
theorem C11_columns_valid_witness :
    ((1 : Int) ≤ 5 ∧ (5 : Int) * 5 ≤ PETSC_MAX_INT ∧ (0 : Int) ≤ 12 ∧ (12 : Int) < 5 * 5) ∧
    globalRows 5 5 = 5 * 5 ∧
    ((gridI32 5 12 > 0 → 0 ≤ wrapInt (12 - 5) ∧ wrapInt (12 - 5) < globalRows 5 5) ∧
      (gridI32 5 12 < wrapInt (5 - 1) →
        0 ≤ wrapInt (12 + 5) ∧ wrapInt (12 + 5) < globalRows 5 5) ∧
      (gridJ32 5 12 > 0 → 0 ≤ wrapInt (12 - 1) ∧ wrapInt (12 - 1) < globalRows 5 5) ∧
      (gridJ32 5 12 < wrapInt (5 - 1) →
        0 ≤ wrapInt (12 + 1) ∧ wrapInt (12 + 1) < globalRows 5 5)) ∧
    (∀ e ∈ loopBody32 5 5 [] 12, 0 ≤ e.col ∧ e.col < globalRows 5 5) :=
  ⟨by decide,
    (C11_columns_valid 5 5 12 (by decide) (by decide) (by decide) (by decide)).1,
    (C11_columns_valid 5 5 12 (by decide) (by decide) (by decide) (by decide)).2.1,
    (C11_columns_valid 5 5 12 (by decide) (by decide) (by decide) (by decide)).2.2.1⟩

end XSDK
